import Mathlib

/-!
Shallow embedding of the Google Play deploy step (`main.go`, `publish.go`).

Go strings are modelled as `List Char` wherever the code inspects their
characters (splitting, trimming, prefix tests, the release-notes regex), and
as `String` where they are only compared or stored. Go `int64` version codes
are modelled as `Int` (no arithmetic is performed on them, only comparison,
so overflow cannot occur). Go `float64` user fractions are modelled as `ℚ`:
the only operation the code performs on a fraction is comparison with zero,
which `ℚ` reflects exactly.

`sort.Slice(xs, func(a, b int) bool { return xs[a] < xs[b] })` produces an
ascending reordering of `xs`; for integers any two sorted permutations of the
same list are equal, so the result is modelled by `List.insertionSort (· ≤ ·)`.
The in-place mutation of the sorted slices is modelled by returning the
post-call contents of both slices alongside the boolean result.
-/

/-- `releaseStatusCompleted` of publish.go. -/
def releaseStatusCompleted : String := "completed"

/-- `releaseStatusInProgress` of publish.go. -/
def releaseStatusInProgress : String := "inProgress"

/-- `alphaTrackName` of publish.go. -/
def alphaTrackName : String := "alpha"

/-- `betaTrackName` of publish.go. -/
def betaTrackName : String := "beta"

/-- `rolloutTrackName` of publish.go. -/
def rolloutTrackName : String := "rollout"

/-- `productionTrackName` of publish.go. -/
def productionTrackName : String := "production"

/-- The observable fields of `androidpublisher.TrackRelease` the step reads or
writes: `Name`, `VersionCodes`, `Status`, `UserFraction`, `ReleaseNotes`
(language/text pairs) and `ForceSendFields`. `UserFraction` is a `float64`
whose zero value means "unset"; it is modelled as `Option ℚ` with `none` for
the unset zero value, matching the force-send JSON semantics the code relies
on (a field is emitted only when non-zero or force-sent). -/
structure Release where
  name : String
  versionCodes : List Int
  status : String
  userFraction : Option ℚ
  releaseNotes : List (List Char × String)
  forceSendFields : List String
deriving DecidableEq

/-- The observable fields of `androidpublisher.Track`: its name (`Track`) and
its releases. -/
structure Track where
  track : String
  releases : List Release
deriving DecidableEq

/-- Ascending sort, the effect of `sort.Slice` with an `<` comparator on a
slice of integers. -/
def sortInts (l : List Int) : List Int :=
  List.insertionSort (fun a b => a ≤ b) l

/-- The comparison loop of `hasShadowingVersions` (publish.go lines 291-297),
run after both slices have been sorted: `for i := 0; i < len(new); i++ { if
cur[i] < new[i] { return true } }`. Indexing is modelled with `getD`; the
loop is only ever reached with slices of equal length, where no index is out
of range. -/
def shadowCompare (cur new : List Int) : Bool :=
  (List.range new.length).any fun i => decide (cur.getD i 0 < new.getD i 0)

/-- `hasShadowingVersions` (publish.go lines 287-299). It sorts both argument
slices in place and then runs the comparison loop; the returned triple is
(result, post-call contents of the current slice, post-call contents of the
new slice), making the in-place mutation observable. -/
def hasShadowingVersions (currentVersionCodes newVersionCodes : List Int) :
    Bool × List Int × List Int :=
  (shadowCompare (sortInts currentVersionCodes) (sortInts newVersionCodes),
   sortInts currentVersionCodes, sortInts newVersionCodes)

/-- `hasBlockingVersionInRelease` (publish.go lines 272-284): a length
mismatch is blocking unconditionally and returns before any sorting; equal
lengths defer to `hasShadowingVersions`, whose in-place sort of
`release.VersionCodes` is reflected in the returned release. The triple is
(result, the release after the call, the new-codes slice after the call). -/
def hasBlockingVersionInRelease (release : Release) (newVersionCodes : List Int) :
    Bool × Release × List Int :=
  if release.versionCodes.length ≠ newVersionCodes.length then
    (true, release, newVersionCodes)
  else
    let r := hasShadowingVersions release.versionCodes newVersionCodes
    (r.1, { release with versionCodes := r.2.1 }, r.2.2)

/-- The body of the per-release loop of `untrackFromTracks` (publish.go lines
249-256): a blocking release has its version codes replaced by an explicit
empty list with `ForceSendFields = ["VersionCodes"]`; the pair is (the
release after the iteration, the new-codes slice after the iteration). -/
def processRelease (newVersionCodes : List Int) (release : Release) :
    Release × List Int :=
  let r := hasBlockingVersionInRelease release newVersionCodes
  if r.1 then
    ({ r.2.1 with versionCodes := [], forceSendFields := ["VersionCodes"] }, r.2.2)
  else
    (r.2.1, r.2.2)

/-- The per-track release loop of `untrackFromTracks` (publish.go lines
249-256) threaded through a track's releases in order: each iteration reads
and possibly mutates the shared `versionCodes` slice, and `anyTrackUpdated`
is set when a blocking release is found. The triple is (the releases after
the loop, the new-codes slice after the loop, the flag after the loop). -/
def processReleases (newVersionCodes : List Int) (flag : Bool) :
    List Release → List Release × List Int × Bool
  | [] => ([], newVersionCodes, flag)
  | r :: rs =>
    let b := (hasBlockingVersionInRelease r newVersionCodes).1
    let p := processRelease newVersionCodes r
    let rest := processReleases p.2 (flag || b) rs
    (p.1 :: rest.1, rest.2.1, rest.2.2)

/-- The outcome of one `tracksService.Patch(...).Do()` call: success, the
tolerated `io.EOF` pseudo-error of publish.go line 264, or a real error. -/
inductive PatchOutcome
  | ok
  | eofErr
  | fail (msg : String)
deriving DecidableEq

/-- The remote collaborators `untrackFromTracks` talks to: per track name,
the result of the tracks `Get` call and the outcome of the `Patch` call. -/
structure CleanupEnv where
  fetchTrack : String → Except String Track
  patchResult : String → PatchOutcome

/-- What one loop iteration of `untrackFromTracks` leaves behind: the track
name patched, the track object sent to the patch call, and the `log.Donef`
message emitted just before the patch (publish.go lines 258-262). -/
structure TrackPatch where
  trackName : String
  patched : Track
  message : String
deriving DecidableEq

/-- The loop of `untrackFromTracks` (publish.go lines 240-269). The
`anyTrackUpdated` flag is declared outside the loop and never reset, so it
accumulates across tracks; `versionCodes` is the same slice across all
iterations, so its in-place sorting carries over as well. A patch outcome of
`eofErr` falls through the `err != io.EOF` guard and is not an error. -/
def untrackGo (env : CleanupEnv) :
    List String → List Int → Bool → List TrackPatch → Except String (List TrackPatch)
  | [], _, _, acc => Except.ok acc
  | name :: rest, codes, flag, acc =>
    match env.fetchTrack name with
    | Except.error e => Except.error ("failed to get track (" ++ name ++ "), error: " ++ e)
    | Except.ok track =>
      let p := processReleases codes flag track.releases
      let msg := if p.2.2 then "Desired versions deactivated" else "No blocking apk version found"
      let patched : Track := { track with releases := p.1 }
      match env.patchResult name with
      | PatchOutcome.fail e =>
          Except.error ("failed to update track (" ++ name ++ "), error: " ++ e)
      | _ => untrackGo env rest p.2.1 p.2.2
          (acc ++ [{ trackName := name, patched := patched, message := msg }])

/-- `untrackFromTracks` (publish.go lines 240-269), with the remote calls
supplied by `env`. On success it returns the per-track patches and messages
in order. -/
def untrackFromTracks (trackNamesToUpdate : List String) (versionCodes : List Int)
    (env : CleanupEnv) : Except String (List TrackPatch) :=
  untrackGo env trackNamesToUpdate versionCodes false []

/-- The `switch track` of `trackNamesToUpdate` (publish.go lines 219-224). -/
def possibleTrackNamesToUpdate (track : String) : List String :=
  if track = betaTrackName then [alphaTrackName]
  else if track = rolloutTrackName ∨ track = productionTrackName then
    [alphaTrackName, betaTrackName]
  else []

/-- `trackNamesToUpdate` (publish.go lines 217-237): the double loop keeps,
for each existing track in order, every candidate name equal to it. -/
def trackNamesToUpdate (track : String) (tracks : List Track) : List String :=
  tracks.flatMap fun t =>
    (possibleTrackNamesToUpdate track).filter fun c => decide (c = t.track)

/-- A release on a track is blocking with respect to the new version codes:
the condition of publish.go line 250, as a predicate on the track. -/
def trackHasBlocking (newVersionCodes : List Int) (t : Track) : Bool :=
  t.releases.any fun r => (hasBlockingVersionInRelease r newVersionCodes).1

/-- `strings.TrimSpace`: leading and trailing whitespace removed. The code
only ever feeds it ASCII configuration text; `Char.isWhitespace` covers the
ASCII white space classes. -/
def trimChars (l : List Char) : List Char :=
  ((l.dropWhile Char.isWhitespace).reverse.dropWhile Char.isWhitespace).reverse

/-- `strings.Split(s, sep)` for a one-character separator, as Go defines it:
`splitOnChar sep s` never returns an empty list, and splitting the empty
string yields `[[]]`. -/
def splitOnChar (sep : Char) : List Char → List (List Char)
  | [] => [[]]
  | c :: cs =>
    match splitOnChar sep cs with
    | [] => [[]]
    | h :: t => if c = sep then [] :: h :: t else (c :: h) :: t

/-- `expFileInfo` (publish.go lines 55-70): split the entry on `":"`; fewer
than two segments is an error; otherwise the trimmed first segment is the
type and the remaining segments rejoined without the delimiter, trimmed, are
the path. Returns (path, type) like the Go function. -/
def expFileInfo (expFileConfigEntry : List Char) : Except String (List Char × List Char) :=
  let expansionFilePathSplit := splitOnChar ':' expFileConfigEntry
  if expansionFilePathSplit.length < 2 then
    Except.error "malformed expansion file path"
  else
    Except.ok (trimChars (expansionFilePathSplit.drop 1).flatten,
      trimChars (expansionFilePathSplit.headD []))

/-- `validateExpansionFileConfig` (publish.go lines 74-77). -/
def validateExpansionFileConfig (expFileEntry : List Char) : Bool :=
  "main:".data.isPrefixOf (trimChars expFileEntry) ||
    "patch:".data.isPrefixOf (trimChars expFileEntry)

/-- The local, pre-network part of `uploadExpansionFiles` (publish.go lines
29-38): trim the entry, validate it, extract (path, type). An `error` result
means the function returns before the expansion-file upload network call;
an `ok (path, type)` means it proceeds to open `path` and upload with
`type`. -/
def uploadExpansionFilesPlan (expFileEntry : List Char) : Except String (List Char × List Char) :=
  let cleanExpFileConfigEntry := trimChars expFileEntry
  if !validateExpansionFileConfig cleanExpFileConfigEntry then
    Except.error "invalid expansion file config"
  else
    expFileInfo cleanExpFileConfigEntry

/-- The literal `"whatsnew-"` the release-notes loader builds its glob
pattern and regular expression from (publish.go lines 162 and 168). -/
def whatsnewPat : List Char := "whatsnew-".data

/-- Whether a file name matches the glob pattern `whatsnew-*-*` of publish.go
line 162: `*` matches any run of non-separator characters (hyphens and even
newlines included; only `/` is excluded), so a name matches exactly when it
starts with `whatsnew-` and the remainder contains at least one further
hyphen. -/
def globWhatsnewName (name : List Char) : Bool :=
  whatsnewPat.isPrefixOf name && (name.drop 9).contains '-'

/-- What Go's `.` can match from the start of a remainder: with the default
flags, `.` matches any character except newline, so a run of `.*` is
confined to the text before the first `'\n'`. -/
def lineOf (r : List Char) : List Char :=
  r.takeWhile fun c => decide (c ≠ '\n')

/-- `re.FindStringSubmatch` for `whatsnew-(?P<local>.*-.*)` applied to a full
path (publish.go lines 168-174). The engine scans start positions left to
right; at a position the whole pattern matches exactly when the literal
`whatsnew-` matches there and the remainder's line (the text before the
first newline — `.` does not match newline, `/` and `-` it does match) holds
a hyphen. Both `.*` are greedy, so the capture at the leftmost matching
position is that whole line; a position where only the literal matches does
not stop the scan. -/
def regexSubmatchLocale : List Char → Option (List Char)
  | [] => none
  | c :: cs =>
    if whatsnewPat.isPrefixOf (c :: cs) then
      if (lineOf ((c :: cs).drop 9)).contains '-' then some (lineOf ((c :: cs).drop 9))
      else regexSubmatchLocale cs
    else regexSubmatchLocale cs

/-- Go map insertion: overwrite the entry with the same key, else append. -/
def mapInsert (k : List Char) (v : String) (m : List (List Char × String)) :
    List (List Char × String) :=
  if m.any fun p => decide (p.1 = k) then
    m.map fun p => if p.1 = k then (k, v) else p
  else m ++ [(k, v)]

/-- `readLocalisedRecentChanges` (publish.go lines 159-194) over a directory
modelled as its entries (file name, file contents). `filepath.Glob` yields
the entries matching `whatsnew-*-*` joined to the directory path (the
`filepath.Join` clean step never alters a slash-free file name, and is
elided; Glob's sorting of the result only decides which file wins when two
paths produce the same map key, and is modelled by listing order). Each
path's locale is what the regular expression captures from the full path; a
missing or empty directory is simply an empty entry list. -/
def readLocalisedRecentChanges (recentChangesDir : List Char)
    (entries : List (List Char × String)) : List (List Char × String) :=
  let recentChangesPaths := (entries.filter fun f => globWhatsnewName f.1).map
    fun f => (recentChangesDir ++ '/' :: f.1, f.2)
  recentChangesPaths.foldl
    (fun m pf =>
      match regexSubmatchLocale pf.1 with
      | some language => mapInsert language pf.2 m
      | none => m) []

/-- `releaseStatusFromConfig` (publish.go lines 302-308). -/
def releaseStatusFromConfig (userFraction : ℚ) : String :=
  if userFraction ≠ 0 then releaseStatusInProgress else releaseStatusCompleted

/-- `updateListing` (publish.go lines 132-156): when the whats-new directory
is configured (non-empty path), replace the release's notes with one entry
per locale the loader found; Go's map iteration order is modelled by the
loader's list order, which the claims never inspect. -/
def updateListing (whatsNewsDir : List Char) (entries : List (List Char × String))
    (release : Release) : Release :=
  if whatsNewsDir ≠ [] then
    { release with releaseNotes := readLocalisedRecentChanges whatsNewsDir entries }
  else release

/-- `createTrackRelease` (publish.go lines 197-214): status from the
fraction, the fraction attached only when non-zero, then the listing
update. The directory contents stand in for the filesystem the Go code
reads. -/
def createTrackRelease (whatsNewsDir : List Char) (entries : List (List Char × String))
    (versionCodes : List Int) (userFraction : ℚ) : Release :=
  let newRelease : Release :=
    { name := ""
      versionCodes := versionCodes
      status := releaseStatusFromConfig userFraction
      userFraction := if userFraction ≠ 0 then some userFraction else none
      releaseNotes := []
      forceSendFields := [] }
  updateListing whatsNewsDir entries newRelease

/-- The remote calls `main` (main.go lines 190-366) performs inside the
publishing workflow, in order: the edit insert, one apk upload per
configured path, the track update, and the edit commit. -/
inductive RemoteCall
  | insertEdit
  | uploadApk (path : List Char)
  | updateTrack
  | commitEdit
deriving DecidableEq

/-- The fallible collaborators of `main` (main.go lines 190-366), each step's
result supplied by the environment: configuration validation (lines
196-201), client setup covering key download, key decoding and publisher
service construction (lines 208-269), the edit insert call (lines 281-287),
per apk path the local open (lines 300-304) and the upload call (lines
311-315), the user-fraction parse (lines 334-341, consulted only for the
rollout track), and the track update call (lines 343-348). -/
structure MainEnv where
  validateConfig : Except String Unit
  createClient : Except String Unit
  insertEdit : Except String String
  openApk : List Char → Except String Unit
  uploadApk : List Char → Except String Int
  parseUserFraction : Except String ℚ
  updateTrack : Except String Unit

/-- The apk upload loop of `main` (main.go lines 297-319): for each path,
open the file (exit on failure, before any upload call for it), then upload
(the call is performed even when it fails). Returns the upload calls
performed and whether the whole loop succeeded. -/
def uploadApksLoop (env : MainEnv) : List (List Char) → List RemoteCall × Bool
  | [] => ([], true)
  | p :: ps =>
    match env.openApk p with
    | Except.error _ => ([], false)
    | Except.ok _ =>
      match env.uploadApk p with
      | Except.error _ => ([RemoteCall.uploadApk p], false)
      | Except.ok _ =>
        let rest := uploadApksLoop env ps
        (RemoteCall.uploadApk p :: rest.1, rest.2)

/-- The tail of `main` after a successful upload loop (main.go lines
327-361): parse the user fraction when the track is `rollout` (exit on
failure before the update call), perform the track update (exit on failure),
then perform the commit call. -/
def mainTraceAfterUploads (track : List Char) (env : MainEnv) : List RemoteCall :=
  let updateAndCommit :=
    match env.updateTrack with
    | Except.error _ => [RemoteCall.updateTrack]
    | Except.ok _ => [RemoteCall.updateTrack, RemoteCall.commitEdit]
  if track = "rollout".data then
    match env.parseUserFraction with
    | Except.error _ => []
    | Except.ok _ => updateAndCommit
  else updateAndCommit

/-- The sequence of remote calls `main` (main.go lines 190-366) performs for
a given target track and `|`-separated apk path configuration: every failing
step calls `os.Exit(1)`, so nothing after it runs. -/
def mainTrace (track apkPath : List Char) (env : MainEnv) : List RemoteCall :=
  match env.validateConfig with
  | Except.error _ => []
  | Except.ok _ =>
  match env.createClient with
  | Except.error _ => []
  | Except.ok _ =>
  match env.insertEdit with
  | Except.error _ => [RemoteCall.insertEdit]
  | Except.ok _ =>
    let up := uploadApksLoop env (splitOnChar '|' apkPath)
    if up.2 then
      RemoteCall.insertEdit :: up.1 ++ mainTraceAfterUploads track env
    else
      RemoteCall.insertEdit :: up.1

lemma sortInts_sorted (l : List Int) : (sortInts l).Sorted (· ≤ ·) :=
  List.sorted_insertionSort _ l

lemma sortInts_perm (l : List Int) : (sortInts l).Perm l :=
  List.perm_insertionSort _ l

lemma sortInts_length (l : List Int) : (sortInts l).length = l.length :=
  (sortInts_perm l).length_eq

/-- C1: the blocking check is true when the two version-code lists have
different lengths, unconditionally; with equal lengths it is true exactly
when, after sorting both lists ascending, some position holds a current code
strictly below the new code at that position. -/
theorem hasBlockingVersionInRelease_spec (r : Release) (B : List Int) :
    (hasBlockingVersionInRelease r B).1 = true ↔
      r.versionCodes.length ≠ B.length ∨
      ∃ i < B.length, (sortInts r.versionCodes).getD i 0 < (sortInts B).getD i 0 := by
  by_cases h : r.versionCodes.length ≠ B.length
  · simp [hasBlockingVersionInRelease, h]
  · simp only [hasBlockingVersionInRelease, h, if_false, hasShadowingVersions, shadowCompare,
      List.any_eq_true, List.mem_range, sortInts_length, decide_eq_true_eq]
    tauto

/-- C8: the shadowing comparison leaves both of its argument slices sorted
ascending — each post-call slice is an ascending permutation of the
corresponding input — whatever the comparison's boolean outcome. -/
theorem hasShadowingVersions_sorts_in_place (cur new : List Int) :
    ((hasShadowingVersions cur new).2.1.Sorted (· ≤ ·) ∧
      (hasShadowingVersions cur new).2.1.Perm cur) ∧
    ((hasShadowingVersions cur new).2.2.Sorted (· ≤ ·) ∧
      (hasShadowingVersions cur new).2.2.Perm new) :=
  ⟨⟨sortInts_sorted cur, sortInts_perm cur⟩, ⟨sortInts_sorted new, sortInts_perm new⟩⟩

/-- C2 (amended): clearing a blocking release sets its version-code list to
an explicitly force-sent empty list and never touches its name, status,
fraction or notes; a non-blocking release also keeps those fields and its
force-send list, but its version-code list is reordered ascending in place
(same multiset) by the comparison. -/
theorem processRelease_frame (B : List Int) (r : Release) :
    ((processRelease B r).1.name = r.name ∧
     (processRelease B r).1.status = r.status ∧
     (processRelease B r).1.userFraction = r.userFraction ∧
     (processRelease B r).1.releaseNotes = r.releaseNotes) ∧
    ((hasBlockingVersionInRelease r B).1 = true →
      (processRelease B r).1.versionCodes = [] ∧
      (processRelease B r).1.forceSendFields = ["VersionCodes"]) ∧
    ((hasBlockingVersionInRelease r B).1 = false →
      (processRelease B r).1.forceSendFields = r.forceSendFields ∧
      (processRelease B r).1.versionCodes.Perm r.versionCodes ∧
      (processRelease B r).1.versionCodes.Sorted (· ≤ ·)) := by
  by_cases h : r.versionCodes.length ≠ B.length
  · simp [processRelease, hasBlockingVersionInRelease, h]
  · by_cases hb : shadowCompare (sortInts r.versionCodes) (sortInts B) = true
    · simp [processRelease, hasBlockingVersionInRelease, hasShadowingVersions, h, hb]
    · simp [processRelease, hasBlockingVersionInRelease, hasShadowingVersions, h, hb,
        sortInts_perm, sortInts_sorted]

/-- C2 (counterexample): a non-blocking release is not left identity-equal —
with current codes `[5, 3]` against new codes `[3, 4]` nothing is blocking,
yet the release comes back with its version codes reordered to `[3, 5]`. -/
theorem processRelease_nonblocking_mutates :
    (hasBlockingVersionInRelease ⟨"r", [5, 3], "completed", none, [], []⟩ [3, 4]).1 = false ∧
    (processRelease [3, 4] ⟨"r", [5, 3], "completed", none, [], []⟩).1 ≠
      ⟨"r", [5, 3], "completed", none, [], []⟩ ∧
    (processRelease [3, 4] ⟨"r", [5, 3], "completed", none, [], []⟩).1.versionCodes = [3, 5] := by
  decide

/-- C3: a name is a candidate track for cleanup exactly when the target
selects it (beta selects alpha; rollout and production select alpha and
beta; alpha and unrecognised targets select nothing) and a track with that
name exists in the fetched track list. -/
theorem trackNamesToUpdate_spec (target : String) (tracks : List Track) (name : String) :
    name ∈ trackNamesToUpdate target tracks ↔
      ((target = betaTrackName ∧ name = alphaTrackName) ∨
       ((target = rolloutTrackName ∨ target = productionTrackName) ∧
         (name = alphaTrackName ∨ name = betaTrackName))) ∧
      name ∈ tracks.map Track.track := by
  unfold trackNamesToUpdate possibleTrackNamesToUpdate
  rw [List.mem_flatMap]
  by_cases h1 : target = betaTrackName
  · have h2 : ¬ (target = rolloutTrackName ∨ target = productionTrackName) := by
      subst h1; decide
    simp only [h1, if_true, List.mem_filter, decide_eq_true_eq, List.mem_map]
    simp [h2, h1]
    tauto
  · by_cases h2 : target = rolloutTrackName ∨ target = productionTrackName
    · simp only [h1, if_false, h2, if_true, List.mem_filter, decide_eq_true_eq, List.mem_map]
      simp [h1, h2]
      constructor
      · rintro ⟨t, ht, (hn | hn), rfl⟩
        · exact ⟨Or.inl hn, t, ht, rfl⟩
        · exact ⟨Or.inr hn, t, ht, rfl⟩
      · rintro ⟨hn | hn, t, ht, rfl⟩
        · exact ⟨t, ht, Or.inl hn, hn ▸ rfl⟩
        · exact ⟨t, ht, Or.inr hn, hn ▸ rfl⟩
    · simp [h1, h2]

/-- C5: the built release is `inProgress` with the fraction attached when the
configured fraction is non-zero, and `completed` with no fraction field when
it is zero. -/
theorem createTrackRelease_status_fraction (dir : List Char)
    (entries : List (List Char × String)) (codes : List Int) (q : ℚ) :
    (createTrackRelease dir entries codes q).status =
      (if q = 0 then releaseStatusCompleted else releaseStatusInProgress) ∧
    (createTrackRelease dir entries codes q).userFraction =
      (if q = 0 then none else some q) := by
  by_cases h : q = 0 <;> by_cases hd : dir = [] <;>
    simp [createTrackRelease, updateListing, releaseStatusFromConfig, h, hd]

/-- C6 (amended): a built release carries a user fraction exactly when its
status is `inProgress`, and a present fraction is never zero; the code
performs no range check, so membership of (0, 1] is not guaranteed. -/
theorem release_fraction_iff_inProgress (dir : List Char)
    (entries : List (List Char × String)) (codes : List Int) (q : ℚ) :
    ((createTrackRelease dir entries codes q).userFraction.isSome ↔
      (createTrackRelease dir entries codes q).status = releaseStatusInProgress) ∧
    (createTrackRelease dir entries codes q).userFraction ≠ some 0 := by
  have hne : releaseStatusCompleted ≠ releaseStatusInProgress := by decide
  by_cases h : q = 0 <;> by_cases hd : dir = [] <;>
    simp [createTrackRelease, updateListing, releaseStatusFromConfig, h, hd, hne]

/-- C6 (counterexample): the builder attaches a configured fraction of 2
as-is, and 2 does not lie in the half-open interval (0, 1]. -/
theorem release_fraction_range_violation :
    (createTrackRelease [] [] [5] 2).userFraction = some 2 ∧
    (2 : ℚ) ∉ Set.Ioc (0 : ℚ) 1 := by
  constructor
  · simp [createTrackRelease, updateListing]
  · simp [Set.mem_Ioc]

lemma dropWhile_dropWhile_self (p : Char → Bool) (l : List Char) :
    (l.dropWhile p).dropWhile p = l.dropWhile p := by
  induction l with
  | nil => rfl
  | cons c cs ih => by_cases h : p c <;> simp [List.dropWhile_cons, h, ih]

lemma dropWhile_head_false (p : Char → Bool) :
    ∀ (l : List Char) (c : Char) (cs : List Char), l.dropWhile p = c :: cs → p c = false := by
  intro l
  induction l with
  | nil => intro c cs h; simp at h
  | cons a as ih =>
    intro c cs h
    by_cases ha : p a
    · rw [List.dropWhile_cons_of_pos ha] at h
      exact ih c cs h
    · rw [List.dropWhile_cons_of_neg ha] at h
      cases h
      simpa using ha

lemma dropWhile_suffix_self (p : Char → Bool) (l : List Char) :
    l.dropWhile p <:+ l := by
  induction l with
  | nil => exact List.suffix_refl _
  | cons c cs ih =>
    by_cases h : p c
    · rw [List.dropWhile_cons_of_pos h]
      exact ih.trans (List.suffix_cons c cs)
    · rw [List.dropWhile_cons_of_neg h]

lemma trimChars_idem (l : List Char) : trimChars (trimChars l) = trimChars l := by
  have hT : trimChars l =
      ((l.dropWhile Char.isWhitespace).reverse.dropWhile Char.isWhitespace).reverse := rfl
  have hpre : ((l.dropWhile Char.isWhitespace).reverse.dropWhile Char.isWhitespace).reverse <+:
      l.dropWhile Char.isWhitespace := by
    obtain ⟨s, hs⟩ := dropWhile_suffix_self Char.isWhitespace
      (l.dropWhile Char.isWhitespace).reverse
    refine ⟨s.reverse, ?_⟩
    have := congrArg List.reverse hs
    simpa using this
  have h1 : (trimChars l).dropWhile Char.isWhitespace = trimChars l := by
    rw [hT]
    cases hY : ((l.dropWhile Char.isWhitespace).reverse.dropWhile Char.isWhitespace).reverse with
    | nil => rfl
    | cons c cs =>
      obtain ⟨t, ht⟩ := hpre
      rw [hY] at ht
      have hc := dropWhile_head_false Char.isWhitespace l c (cs ++ t) (by
        rw [← ht]; rfl)
      rw [List.dropWhile_cons_of_neg (by simp [hc])]
  calc trimChars (trimChars l)
      = (((trimChars l).dropWhile Char.isWhitespace).reverse.dropWhile
          Char.isWhitespace).reverse := rfl
    _ = ((trimChars l).reverse.dropWhile Char.isWhitespace).reverse := by rw [h1]
    _ = trimChars l := by
        rw [hT, List.reverse_reverse, dropWhile_dropWhile_self]

lemma splitOnChar_ne_nil (sep : Char) (l : List Char) : splitOnChar sep l ≠ [] := by
  induction l with
  | nil => simp [splitOnChar]
  | cons c cs ih =>
    cases h : splitOnChar sep cs with
    | nil => exact absurd h ih
    | cons hd tl =>
      by_cases hc : c = sep <;> simp [splitOnChar, h, hc]

lemma splitOnChar_sep_cons (sep : Char) :
    ∀ (pre rest : List Char), sep ∉ pre →
      splitOnChar sep (pre ++ sep :: rest) = pre :: splitOnChar sep rest := by
  intro pre
  induction pre with
  | nil =>
    intro rest _
    cases h : splitOnChar sep rest with
    | nil => exact absurd h (splitOnChar_ne_nil sep rest)
    | cons hd tl => simp [splitOnChar, h]
  | cons c pre' ih =>
    intro rest hmem
    have hc : c ≠ sep := fun h => hmem (h ▸ List.mem_cons_self c pre')
    have hrec := ih rest (fun h => hmem (List.mem_cons_of_mem c h))
    simp only [List.cons_append, splitOnChar]
    have hrec2 : splitOnChar sep (pre'.append (sep :: rest)) =
        pre' :: splitOnChar sep rest := hrec
    rw [hrec2]
    simp [hc]

lemma two_le_splitOnChar (sep : Char) :
    ∀ l : List Char, sep ∈ l → 2 ≤ (splitOnChar sep l).length := by
  intro l
  induction l with
  | nil => intro h; simp at h
  | cons c cs ih =>
    intro hmem
    cases h : splitOnChar sep cs with
    | nil => exact absurd h (splitOnChar_ne_nil sep cs)
    | cons hd tl =>
      by_cases hc : c = sep
      · simp [splitOnChar, h, hc]
      · have hcs : sep ∈ cs := by
          rcases List.mem_cons.mp hmem with h' | h'
          · exact absurd h'.symm hc
          · exact h'
        have := ih hcs
        rw [h] at this
        simp only [splitOnChar, h, hc, if_false]
        simpa using this

lemma validate_decompose (clean : List Char)
    (hv : validateExpansionFileConfig clean = true) (hid : trimChars clean = clean) :
    ∃ w rest, (w = "main".data ∨ w = "patch".data) ∧ clean = w ++ ':' :: rest := by
  unfold validateExpansionFileConfig at hv
  rw [hid] at hv
  rcases Bool.or_eq_true_iff.mp hv with h | h
  · obtain ⟨rest, hrest⟩ := List.isPrefixOf_iff_prefix.mp h
    exact ⟨"main".data, rest, Or.inl rfl, by rw [← hrest]; rfl⟩
  · obtain ⟨rest, hrest⟩ := List.isPrefixOf_iff_prefix.mp h
    exact ⟨"patch".data, rest, Or.inr rfl, by rw [← hrest]; rfl⟩

/-- C7: splitting an expansion-file descriptor on colons, the trimmed first
segment is the type and the remaining segments rejoined without the
delimiter and trimmed are the path; a successful plan always carries a type
in {main, patch} and at least two segments, `"main: /tmp/app.obb"` parses to
type `main` and path `/tmp/app.obb`, and a descriptor with fewer than two
segments or a type outside {main, patch} fails before any network call. -/
theorem expansionFileEntry_spec (e : List Char) :
    (∀ p t, uploadExpansionFilesPlan e = Except.ok (p, t) →
      t = trimChars ((splitOnChar ':' (trimChars e)).headD []) ∧
      p = trimChars ((splitOnChar ':' (trimChars e)).drop 1).flatten ∧
      2 ≤ (splitOnChar ':' (trimChars e)).length ∧
      (t = "main".data ∨ t = "patch".data)) ∧
    ((splitOnChar ':' (trimChars e)).length < 2 →
      ∃ msg, uploadExpansionFilesPlan e = Except.error msg) ∧
    (trimChars ((splitOnChar ':' (trimChars e)).headD []) ∉ ["main".data, "patch".data] →
      ∃ msg, uploadExpansionFilesPlan e = Except.error msg) ∧
    uploadExpansionFilesPlan "main: /tmp/app.obb".data =
      Except.ok ("/tmp/app.obb".data, "main".data) ∧
    (∃ msg, uploadExpansionFilesPlan "weird/path".data = Except.error msg) ∧
    (∃ msg, uploadExpansionFilesPlan "badtype:/x".data = Except.error msg) := by
  have hid : trimChars (trimChars e) = trimChars e := trimChars_idem e
  have hkey : validateExpansionFileConfig (trimChars e) = true →
      ∃ w rest, (w = "main".data ∨ w = "patch".data) ∧
        splitOnChar ':' (trimChars e) = w :: splitOnChar ':' rest ∧
        trimChars w = w := by
    intro hv
    obtain ⟨w, rest, hw, hcl⟩ := validate_decompose (trimChars e) hv hid
    have hsep : ':' ∉ w := by rcases hw with rfl | rfl <;> decide
    have htw : trimChars w = w := by rcases hw with rfl | rfl <;> decide
    exact ⟨w, rest, hw, by rw [hcl]; exact splitOnChar_sep_cons ':' w rest hsep, htw⟩
  refine ⟨?_, ?_, ?_, by rfl, ⟨"invalid expansion file config", by rfl⟩,
    ⟨"invalid expansion file config", by rfl⟩⟩
  · intro p t hok
    cases hv : validateExpansionFileConfig (trimChars e) with
    | false => simp [uploadExpansionFilesPlan, hv] at hok
    | true =>
      obtain ⟨w, rest, hw, hsplit, htw⟩ := hkey hv
      simp only [uploadExpansionFilesPlan, hv, Bool.not_true, Bool.false_eq_true, if_false,
        expFileInfo, hsplit] at hok
      have hnn := splitOnChar_ne_nil ':' rest
      obtain ⟨a, b, hS⟩ : ∃ a b, splitOnChar ':' rest = a :: b := by
        cases h : splitOnChar ':' rest with
        | nil => exact absurd h hnn
        | cons a b => exact ⟨a, b, rfl⟩
      rw [hS] at hok
      rw [if_neg (by simp)] at hok
      simp only [Except.ok.injEq, Prod.mk.injEq] at hok
      obtain ⟨hp, ht⟩ := hok
      rw [hsplit, hS]
      refine ⟨ht.symm, hp.symm, by simp, ?_⟩
      rw [← ht]
      simp only [List.headD_cons]
      rw [htw]
      exact hw
  · intro hlen
    cases hv : validateExpansionFileConfig (trimChars e) with
    | false =>
      refine ⟨"invalid expansion file config", ?_⟩
      simp [uploadExpansionFilesPlan, hv]
    | true =>
      obtain ⟨w, rest, _, hsplit, _⟩ := hkey hv
      rw [hsplit] at hlen
      have hnn := splitOnChar_ne_nil ':' rest
      cases h : splitOnChar ':' rest with
      | nil => exact absurd h hnn
      | cons a b => rw [h] at hlen; simp at hlen; omega
  · intro hmem
    cases hv : validateExpansionFileConfig (trimChars e) with
    | false =>
      refine ⟨"invalid expansion file config", ?_⟩
      simp [uploadExpansionFilesPlan, hv]
    | true =>
      obtain ⟨w, rest, hw, hsplit, htw⟩ := hkey hv
      rw [hsplit] at hmem
      simp only [List.headD_cons] at hmem
      rw [htw] at hmem
      rcases hw with rfl | rfl
      · exact absurd (by simp) hmem
      · exact absurd (by simp) hmem

lemma isOk_ok {ε α : Type} (a : α) : (Except.ok a : Except ε α).isOk = true := rfl

lemma isOk_error {ε α : Type} (e : ε) : (Except.error e : Except ε α).isOk = false := rfl

lemma uploadApksLoop_ok_iff (env : MainEnv) :
    ∀ ps : List (List Char), (uploadApksLoop env ps).2 = true ↔
      ∀ p ∈ ps, (env.openApk p).isOk = true ∧ (env.uploadApk p).isOk = true := by
  intro ps
  induction ps with
  | nil => simp [uploadApksLoop]
  | cons p ps ih =>
    cases ho : env.openApk p with
    | error err =>
      simp only [uploadApksLoop, ho]
      constructor
      · intro h; cases h
      · intro h
        have := (h p (List.mem_cons_self p ps)).1
        rw [ho] at this
        cases this
    | ok u =>
      cases hu : env.uploadApk p with
      | error err =>
        simp only [uploadApksLoop, ho, hu]
        constructor
        · intro h; cases h
        · intro h
          have := (h p (List.mem_cons_self p ps)).2
          rw [hu] at this
          cases this
      | ok v =>
        simp only [uploadApksLoop, ho, hu]
        rw [ih]
        constructor
        · intro h q hq
          rcases List.mem_cons.mp hq with rfl | hq'
          · exact ⟨by rw [ho]; rfl, by rw [hu]; rfl⟩
          · exact h q hq'
        · intro h q hq
          exact h q (List.mem_cons_of_mem p hq)

lemma commitEdit_not_mem_uploadApksLoop (env : MainEnv) :
    ∀ ps : List (List Char), RemoteCall.commitEdit ∉ (uploadApksLoop env ps).1 := by
  intro ps
  induction ps with
  | nil => simp [uploadApksLoop]
  | cons p ps ih =>
    cases ho : env.openApk p with
    | error err => simp [uploadApksLoop, ho]
    | ok u =>
      cases hu : env.uploadApk p with
      | error err => simp [uploadApksLoop, ho, hu]
      | ok v => simp [uploadApksLoop, ho, hu, ih]

/-- C4: the commit call appears in the trace of `main` exactly when every
preceding step (configuration validation, client setup, the edit insert,
every apk open and upload, the fraction parse for a rollout track, and the
track update) succeeded; any earlier failure ends the run with no commit
call performed. -/
theorem main_commit_iff_all_ok (track apkPath : List Char) (env : MainEnv) :
    RemoteCall.commitEdit ∈ mainTrace track apkPath env ↔
      env.validateConfig.isOk = true ∧ env.createClient.isOk = true ∧
      env.insertEdit.isOk = true ∧
      (∀ p ∈ splitOnChar '|' apkPath,
        (env.openApk p).isOk = true ∧ (env.uploadApk p).isOk = true) ∧
      (track = "rollout".data → env.parseUserFraction.isOk = true) ∧
      env.updateTrack.isOk = true := by
  cases hval : env.validateConfig with
  | error e => simp [mainTrace, hval, isOk_error]
  | ok u1 =>
  cases hcli : env.createClient with
  | error e => simp [mainTrace, hval, hcli, isOk_error]
  | ok u2 =>
  cases hins : env.insertEdit with
  | error e => simp [mainTrace, hval, hcli, hins, isOk_error]
  | ok u3 =>
    have hups := uploadApksLoop_ok_iff env (splitOnChar '|' apkPath)
    have hnomem := commitEdit_not_mem_uploadApksLoop env (splitOnChar '|' apkPath)
    by_cases hup : (uploadApksLoop env (splitOnChar '|' apkPath)).2 = true
    · simp only [mainTrace, hval, hcli, hins, hup, if_true, isOk_ok, true_and]
      rw [← hups]
      simp only [hup, true_and]
      rw [List.mem_append, List.mem_cons]
      simp only [hnomem, or_false, false_or, reduceCtorEq]
      unfold mainTraceAfterUploads
      by_cases htr : track = "rollout".data
      · simp only [htr, if_true]
        cases hpf : env.parseUserFraction with
        | error e =>
          simp [hpf, isOk_error, htr]
        | ok f =>
          cases hupd : env.updateTrack with
          | error e => simp [hupd, isOk_error, isOk_ok]
          | ok u4 => simp [hupd, isOk_ok]
      · simp only [htr, if_false]
        cases hupd : env.updateTrack with
        | error e => simp [hupd, isOk_error, htr]
        | ok u4 => simp [hupd, isOk_ok, htr]
    · simp only [mainTrace, hval, hcli, hins, hup, Bool.false_eq_true, if_false, isOk_ok,
        true_and]
      rw [List.mem_cons]
      simp only [hnomem, or_false, reduceCtorEq, false_iff, not_and]
      intro h1
      rw [← hups] at h1
      exact absurd h1 hup

/-- Two states of the shared version-codes slice that the blocking check
cannot tell apart: same length and same sorted contents. -/
def codesEquiv (a b : List Int) : Prop :=
  a.length = b.length ∧ sortInts a = sortInts b

lemma sortInts_idem (l : List Int) : sortInts (sortInts l) = sortInts l :=
  List.eq_of_perm_of_sorted (sortInts_perm (sortInts l)) (sortInts_sorted (sortInts l))
    (sortInts_sorted l)

lemma codesEquiv_refl (a : List Int) : codesEquiv a a := ⟨rfl, rfl⟩

lemma codesEquiv_trans {a b c : List Int} (h1 : codesEquiv a b) (h2 : codesEquiv b c) :
    codesEquiv a c := ⟨h1.1.trans h2.1, h1.2.trans h2.2⟩

lemma blocking_codesEquiv (r : Release) {a b : List Int} (h : codesEquiv a b) :
    (hasBlockingVersionInRelease r a).1 = (hasBlockingVersionInRelease r b).1 := by
  unfold hasBlockingVersionInRelease hasShadowingVersions
  rw [h.1, h.2]
  split <;> rfl

lemma post_codesEquiv (r : Release) (a : List Int) :
    codesEquiv (hasBlockingVersionInRelease r a).2.2 a := by
  unfold hasBlockingVersionInRelease
  by_cases hl : r.versionCodes.length ≠ a.length
  · rw [if_pos hl]
    exact codesEquiv_refl a
  · rw [if_neg hl]
    exact ⟨sortInts_length a, sortInts_idem a⟩

lemma processRelease_snd (a : List Int) (r : Release) :
    (processRelease a r).2 = (hasBlockingVersionInRelease r a).2.2 := by
  unfold processRelease
  by_cases hb : (hasBlockingVersionInRelease r a).1 <;> simp [hb]

lemma processReleases_spec (b0 : List Int) (rs : List Release) :
    ∀ (codes : List Int) (flag : Bool), codesEquiv codes b0 →
      (processReleases codes flag rs).2.2 =
        (flag || rs.any fun r => (hasBlockingVersionInRelease r b0).1) ∧
      codesEquiv (processReleases codes flag rs).2.1 b0 := by
  induction rs with
  | nil => intro codes flag h; exact ⟨by simp [processReleases], h⟩
  | cons r rs ih =>
    intro codes flag h
    have hb : (hasBlockingVersionInRelease r codes).1 =
        (hasBlockingVersionInRelease r b0).1 := blocking_codesEquiv r h
    have hpost : codesEquiv (processRelease codes r).2 b0 := by
      rw [processRelease_snd]
      exact codesEquiv_trans (post_codesEquiv r codes) h
    obtain ⟨h1, h2⟩ := ih (processRelease codes r).2
      (flag || (hasBlockingVersionInRelease r codes).1) hpost
    refine ⟨?_, h2⟩
    show (processReleases (processRelease codes r).2
      (flag || (hasBlockingVersionInRelease r codes).1) rs).2.2 = _
    rw [h1, hb, List.any_cons, Bool.or_assoc]

/-- A cleanup environment where every track fetch succeeds and every patch
call returns success or the tolerated `io.EOF`. -/
def mkCleanupEnv (fetch : String → Track) (patchEOF : String → Bool) : CleanupEnv where
  fetchTrack := fun n => Except.ok (fetch n)
  patchResult := fun n => if patchEOF n then PatchOutcome.eofErr else PatchOutcome.ok

lemma untrackGo_messages (fetch : String → Track) (patchEOF : String → Bool) (b0 : List Int) :
    ∀ (names : List String) (codes : List Int) (flag : Bool) (acc : List TrackPatch),
      codesEquiv codes b0 →
      ∃ L, untrackGo (mkCleanupEnv fetch patchEOF) names codes flag acc =
          Except.ok (acc ++ L) ∧
        L.map (fun l => l.trackName) = names ∧
        L.map (fun l => l.message) = (List.range names.length).map (fun i =>
          if flag || ((names.take (i + 1)).any fun n => trackHasBlocking b0 (fetch n))
          then "Desired versions deactivated" else "No blocking apk version found") := by
  intro names
  induction names with
  | nil =>
    intro codes flag acc h
    exact ⟨[], by simp [untrackGo], rfl, rfl⟩
  | cons n ns ih =>
    intro codes flag acc h
    have hps := processReleases_spec b0 (fetch n).releases codes flag h
    obtain ⟨L, hL, hnames, hmsgs⟩ := ih
      (processReleases codes flag (fetch n).releases).2.1
      (processReleases codes flag (fetch n).releases).2.2
      (acc ++ [{ trackName := n
                 patched := { track := (fetch n).track
                              releases := (processReleases codes flag (fetch n).releases).1 }
                 message := if (processReleases codes flag (fetch n).releases).2.2
                   then "Desired versions deactivated"
                   else "No blocking apk version found" }]) hps.2
    refine ⟨{ trackName := n
              patched := { track := (fetch n).track
                           releases := (processReleases codes flag (fetch n).releases).1 }
              message := if (processReleases codes flag (fetch n).releases).2.2
                then "Desired versions deactivated"
                else "No blocking apk version found" } :: L, ?_, ?_, ?_⟩
    · have hstep : untrackGo (mkCleanupEnv fetch patchEOF) (n :: ns) codes flag acc =
          untrackGo (mkCleanupEnv fetch patchEOF) ns
            (processReleases codes flag (fetch n).releases).2.1
            (processReleases codes flag (fetch n).releases).2.2
            (acc ++ [{ trackName := n
                       patched := { track := (fetch n).track
                                    releases := (processReleases codes flag (fetch n).releases).1 }
                       message := if (processReleases codes flag (fetch n).releases).2.2
                         then "Desired versions deactivated"
                         else "No blocking apk version found" }]) := by
        by_cases hpe : patchEOF n = true <;>
          simp [untrackGo, mkCleanupEnv, hpe]
      rw [hstep, hL]
      simp
    · simp only [List.map_cons, hnames]
    · simp only [List.map_cons, hmsgs, hps.1, List.length_cons, List.range_succ_eq_map,
        List.map_cons, List.map_map]
      congr 1
      · simp [trackHasBlocking]
      · apply List.map_congr_left
        intro i _
        simp only [Function.comp]
        rw [List.take_succ_cons, List.any_cons]
        rw [Bool.or_assoc]
        rfl

/-- C9 (amended): every candidate track is patched exactly once, in order,
whether or not any of its releases changed, with fetch successes and
successful or io.EOF patch outcomes never surfacing an error; the per-track
message reports whether any change occurred on that track or any
earlier-processed track of this cleanup (the flag accumulates and is never
reset), not on that track alone. -/
theorem untrackFromTracks_patch_and_reporting (names : List String) (codes : List Int)
    (fetch : String → Track) (patchEOF : String → Bool) :
    ∃ L, untrackFromTracks names codes (mkCleanupEnv fetch patchEOF) = Except.ok L ∧
      L.map (fun l => l.trackName) = names ∧
      L.length = names.length ∧
      L.map (fun l => l.message) = (List.range names.length).map (fun i =>
        if (names.take (i + 1)).any (fun n => trackHasBlocking codes (fetch n))
        then "Desired versions deactivated" else "No blocking apk version found") := by
  obtain ⟨L, hL, hnames, hmsgs⟩ :=
    untrackGo_messages fetch patchEOF codes names codes false [] (codesEquiv_refl codes)
  refine ⟨L, by simpa using hL, hnames, ?_, ?_⟩
  · have := congrArg List.length hnames
    simpa using this
  · simpa using hmsgs

/-- A track on the alpha channel holding one release that the new version
code 5 shadows. -/
def exBlockTrack : Track :=
  { track := "alpha"
    releases := [{ name := "r1", versionCodes := [3], status := "completed",
                   userFraction := none, releaseNotes := [], forceSendFields := [] }] }

/-- A beta track with no releases at all, so nothing on it can be blocking. -/
def exEmptyTrack : Track := { track := "beta", releases := [] }

/-- The fetch collaborator serving the two example tracks. -/
def exFetch : String → Track := fun n => if n = "alpha" then exBlockTrack else exEmptyTrack

/-- C9 (counterexample): after the alpha track is cleared, the empty beta
track — on which no change occurred — is still reported with "Desired
versions deactivated", because the flag accumulates across tracks; the
reporting does not distinguish whether any change occurred on that track. -/
theorem untrackFromTracks_cumulative_report :
    untrackFromTracks ["alpha", "beta"] [5] (mkCleanupEnv exFetch fun _ => false) =
      Except.ok
        [{ trackName := "alpha"
           patched := { track := "alpha"
                        releases := [{ name := "r1", versionCodes := [], status := "completed",
                                       userFraction := none, releaseNotes := [],
                                       forceSendFields := ["VersionCodes"] }] }
           message := "Desired versions deactivated" },
         { trackName := "beta"
           patched := { track := "beta", releases := [] }
           message := "Desired versions deactivated" }] ∧
    trackHasBlocking [5] (exFetch "beta") = false := by
  constructor
  · rfl
  · rfl

lemma prefix_through_sep {c : Char} :
    ∀ {X : List Char} {pat : List Char} {Y : List Char}, c ∉ pat →
      pat <+: X ++ c :: Y → pat <+: X := by
  intro X
  induction X with
  | nil =>
    intro pat Y hc hp
    cases pat with
    | nil => exact List.nil_prefix ..
    | cons p ps =>
      rw [List.nil_append] at hp
      obtain ⟨rfl, _⟩ := List.cons_prefix_cons.mp hp
      exact absurd (List.mem_cons_self p ps) hc
  | cons x xs ih =>
    intro pat Y hc hp
    cases pat with
    | nil => exact List.nil_prefix ..
    | cons p ps =>
      rw [List.cons_append] at hp
      obtain ⟨rfl, hps⟩ := List.cons_prefix_cons.mp hp
      exact List.cons_prefix_cons.mpr
        ⟨rfl, ih (fun hm => hc (List.mem_cons_of_mem _ hm)) hps⟩

lemma takeWhile_eq_self (p : Char → Bool) :
    ∀ r : List Char, (∀ c ∈ r, p c = true) → r.takeWhile p = r := by
  intro r
  induction r with
  | nil => intro _; rfl
  | cons c cs ih =>
    intro h
    have hc := h c (List.mem_cons_self c cs)
    have ht := ih fun d hd => h d (List.mem_cons_of_mem c hd)
    simp [List.takeWhile_cons, hc, ht]

lemma regexSubmatch_append (name : List Char) :
    ∀ dir : List Char, ¬ whatsnewPat <:+: (dir ++ ['/']) →
      regexSubmatchLocale (dir ++ '/' :: name) = regexSubmatchLocale name := by
  intro dir
  induction dir with
  | nil =>
    intro _
    have hpre : whatsnewPat.isPrefixOf ('/' :: name) = false := rfl
    rw [List.nil_append]
    rw [regexSubmatchLocale, hpre]
    simp
  | cons d ds ih =>
    intro h
    have hni : ¬ whatsnewPat <:+: (ds ++ ['/']) := fun hinf => by
      rw [List.cons_append] at h
      exact h (List.infix_cons hinf)
    have hpre : whatsnewPat.isPrefixOf (d :: (ds ++ '/' :: name)) = false := by
      cases hb : whatsnewPat.isPrefixOf (d :: (ds ++ '/' :: name)) with
      | false => rfl
      | true =>
        exfalso
        have hp : whatsnewPat <+: (d :: ds) ++ '/' :: name := by
          rw [List.cons_append]
          exact List.isPrefixOf_iff_prefix.mp hb
        have hpd : whatsnewPat <+: d :: ds :=
          prefix_through_sep (by decide) hp
        have : whatsnewPat <:+: (d :: ds) ++ ['/'] :=
          (hpd.trans (List.prefix_append (d :: ds) ['/'])).isInfix
        exact h this
    rw [List.cons_append, regexSubmatchLocale, hpre]
    simp only [Bool.false_eq_true, if_false]
    exact ih hni

lemma regexLocale_path (dir name : List Char)
    (hdir : ¬ whatsnewPat <:+: (dir ++ ['/'])) (hglob : globWhatsnewName name = true)
    (hnl : '\n' ∉ name) :
    regexSubmatchLocale (dir ++ '/' :: name) = some (name.drop 9) := by
  obtain ⟨hp, hc⟩ := Bool.and_eq_true_iff.mp hglob
  rw [regexSubmatch_append name dir hdir]
  cases name with
  | nil =>
    have : whatsnewPat.isPrefixOf ([] : List Char) = false := rfl
    rw [this] at hp
    cases hp
  | cons c cs =>
    have hline : lineOf ((c :: cs).drop 9) = (c :: cs).drop 9 := by
      unfold lineOf
      refine takeWhile_eq_self _ _ ?_
      intro d hd
      have hmem : d ∈ c :: cs := List.mem_of_mem_drop hd
      have hdn : d ≠ '\n' := fun he => hnl (he ▸ hmem)
      simp [hdn]
    rw [regexSubmatchLocale, hp]
    simp only [if_true]
    rw [hline, hc]
    simp

lemma mapInsert_fresh (k : List Char) (v : String) (m : List (List Char × String))
    (h : k ∉ m.map Prod.fst) : mapInsert k v m = m ++ [(k, v)] := by
  unfold mapInsert
  have hany : m.any (fun p => decide (p.1 = k)) = false := by
    rw [Bool.eq_false_iff]
    intro hb
    obtain ⟨p, hp, he⟩ := List.any_eq_true.mp hb
    exact h (List.mem_map.mpr ⟨p, hp, of_decide_eq_true he⟩)
  rw [hany]
  simp

lemma whatsnew_name_inj {n1 n2 : List Char}
    (h1 : whatsnewPat.isPrefixOf n1 = true) (h2 : whatsnewPat.isPrefixOf n2 = true)
    (hd : n1.drop 9 = n2.drop 9) : n1 = n2 := by
  obtain ⟨t1, ht1⟩ := List.isPrefixOf_iff_prefix.mp h1
  obtain ⟨t2, ht2⟩ := List.isPrefixOf_iff_prefix.mp h2
  have h9 : whatsnewPat.length = 9 := rfl
  have e1 : n1.drop 9 = t1 := by
    rw [← ht1, ← h9, List.drop_left]
  have e2 : n2.drop 9 = t2 := by
    rw [← ht2, ← h9, List.drop_left]
  rw [← ht1, ← ht2, ← e1, ← e2, hd]

lemma readFold (dir : List Char) (hdir : ¬ whatsnewPat <:+: (dir ++ ['/'])) :
    ∀ (files : List (List Char × String)) (m : List (List Char × String)),
      (files.map Prod.fst).Nodup →
      (∀ f ∈ files, '\n' ∉ f.1) →
      (∀ f ∈ files, globWhatsnewName f.1 = true → f.1.drop 9 ∉ m.map Prod.fst) →
      ((files.filter fun f => globWhatsnewName f.1).map
          (fun f => (dir ++ '/' :: f.1, f.2))).foldl
        (fun m pf => match regexSubmatchLocale pf.1 with
          | some language => mapInsert language pf.2 m
          | none => m) m
      = m ++ (files.filter fun f => globWhatsnewName f.1).map (fun f => (f.1.drop 9, f.2)) := by
  intro files
  induction files with
  | nil => intro m _ _ _; simp
  | cons f fs ih =>
    intro m hnd hnl hfresh
    have hmap : List.map Prod.fst (f :: fs) = f.1 :: List.map Prod.fst fs := rfl
    have hnd2 : (f.1 :: List.map Prod.fst fs).Nodup := by rw [← hmap]; exact hnd
    have hnd' := List.nodup_cons.mp hnd2
    by_cases hg : globWhatsnewName f.1 = true
    · simp only [List.filter_cons, hg, if_true, List.map_cons, List.foldl_cons]
      rw [regexLocale_path dir f.1 hdir hg (hnl f (List.mem_cons_self f fs))]
      show ((fs.filter fun f => globWhatsnewName f.1).map
          (fun f => (dir ++ '/' :: f.1, f.2))).foldl _
          (mapInsert (f.1.drop 9) f.2 m) = _
      rw [mapInsert_fresh _ _ _ (hfresh f (List.mem_cons_self f fs) hg)]
      rw [ih (m ++ [(f.1.drop 9, f.2)]) hnd'.2
        (fun g hg' => hnl g (List.mem_cons_of_mem f hg')) ?_]
      · rw [List.append_assoc]
        rfl
      · intro g hgfs hgg
        rw [List.map_append]
        rw [List.mem_append]
        push_neg
        refine ⟨hfresh g (List.mem_cons_of_mem f hgfs) hgg, ?_⟩
        intro hmem
        simp only [List.map_cons, List.map_nil, List.mem_singleton] at hmem
        have hgeq : g.1 = f.1 :=
          whatsnew_name_inj (Bool.and_eq_true_iff.mp hgg).1
            (Bool.and_eq_true_iff.mp hg).1 hmem
        exact hnd'.1 (List.mem_map.mpr ⟨g, hgfs, hgeq⟩)
    · have hg2 : globWhatsnewName f.1 = false := by simpa using hg
      simp only [List.filter_cons, hg2, Bool.false_eq_true, if_false]
      exact ih m hnd'.2 (fun g hg' => hnl g (List.mem_cons_of_mem f hg'))
        (fun g hg' => hfresh g (List.mem_cons_of_mem f hg'))

/-- C10 (amended): over any directory whose path contains no occurrence of
`whatsnew-` and whose entries bear distinct newline-free names, the loader
returns exactly one entry per file whose name matches `whatsnew-<locale>`
with `<locale>` containing a hyphen, mapping that locale to the file's full
contents, ignoring every other file; an empty directory yields the empty
mapping. Without the directory restriction the regular expression, which
runs on the full path, can capture from the directory part; without the
newline restriction the capture, whose `.*` cannot cross a newline, can
truncate or miss a locale that the glob accepted. -/
theorem readLocalisedRecentChanges_spec (dir : List Char)
    (files : List (List Char × String))
    (hdir : ¬ whatsnewPat <:+: (dir ++ ['/']))
    (hnd : (files.map Prod.fst).Nodup)
    (hnl : ∀ f ∈ files, '\n' ∉ f.1) :
    readLocalisedRecentChanges dir files =
      (files.filter fun f => globWhatsnewName f.1).map (fun f => (f.1.drop 9, f.2)) := by
  unfold readLocalisedRecentChanges
  have h := readFold dir hdir files [] hnd hnl (by simp)
  simpa using h

/-- C10 (witness): the spec's own example — `whatsnew-en-US`, `whatsnew-fr-FR`
and an unrelated `readme.txt` in a directory `notes` — yields exactly the
two-locale mapping. -/
theorem readLocalisedRecentChanges_spec_witness :
    readLocalisedRecentChanges "notes".data
      [("whatsnew-en-US".data, "Fixed bugs"), ("whatsnew-fr-FR".data, "Corrections de bugs"),
       ("readme.txt".data, "unrelated")] =
      [("en-US".data, "Fixed bugs"), ("fr-FR".data, "Corrections de bugs")] := by
  have h := readLocalisedRecentChanges_spec "notes".data
    [("whatsnew-en-US".data, "Fixed bugs"), ("whatsnew-fr-FR".data, "Corrections de bugs"),
     ("readme.txt".data, "unrelated")] (by decide) (by decide) (by decide)
  rw [h]
  rfl

/-- C10 (counterexample): three concrete directories where the loader does
not produce the claimed locale-to-contents mapping. For a directory itself
named `whatsnew-a-b` the regular expression matches inside the directory
part of the path, keying the file `whatsnew-en-US` by `a-b/whatsnew-en-US`
instead of its locale. For the file `whatsnew-en-US\nx` — accepted by the
glob, whose `*` does match a newline — the capture stops at the newline, so
the key is the truncated `en-US` rather than the locale `en-US\nx`. For the
file `whatsnew-a\n-b` the glob matches but the regular expression, whose
`.*` cannot reach the hyphen beyond the newline, does not, so the file is
silently dropped instead of mapped. -/
theorem readLocalisedRecentChanges_dir_collision :
    (readLocalisedRecentChanges "whatsnew-a-b".data [("whatsnew-en-US".data, "Fixed bugs")] =
        [("a-b/whatsnew-en-US".data, "Fixed bugs")] ∧
      readLocalisedRecentChanges "whatsnew-a-b".data [("whatsnew-en-US".data, "Fixed bugs")] ≠
        [("en-US".data, "Fixed bugs")]) ∧
    readLocalisedRecentChanges "notes".data [("whatsnew-en-US\nx".data, "Fixed bugs")] =
      [("en-US".data, "Fixed bugs")] ∧
    readLocalisedRecentChanges "notes".data [("whatsnew-a\n-b".data, "quiet")] = [] := by
  exact ⟨⟨rfl, by decide⟩, rfl, rfl⟩
